import Mathlib

/-!
Shallow embedding of `src/epub2md.py` (ePUB-to-Obsidian pipeline).

The pipeline's text-manipulation core is modelled over `List Char` / `String`:
Python strings become Lean `String`s, the file system becomes an association
list from paths to contents, and each step (`step_2`, `step_3`, `step_4`)
becomes a pure function on that state.  Documents are represented by their
list of lines (the result of Python's `str.splitlines()`, whose lines never
contain a newline character).
-/

/-- Python `str` whitespace (ASCII part), as used by `str.strip()`. -/
def isPySpace (c : Char) : Bool :=
  c == ' ' || c == '\t' || c == '\n' || c == '\r' || c == '\x0b' || c == '\x0c'

/-- `str.strip()` on a character list: drop leading and trailing whitespace. -/
def stripList (l : List Char) : List Char :=
  ((l.dropWhile isPySpace).reverse.dropWhile isPySpace).reverse

/-- Python `s.strip()`. -/
def pyStrip (s : String) : String := ⟨stripList s.data⟩

/-- Python `s.lower()` (ASCII case folding; the pipeline only tests `.md`). -/
def pyLower (s : String) : String := ⟨s.data.map Char.toLower⟩

/-- Python `s.startswith(pre)`. -/
def pyStartsWith (s pre : String) : Bool := decide (pre.data <+: s.data)

/-- Python `s.endswith(suf)`. -/
def pyEndsWith (s suf : String) : Bool := decide (suf.data <:+ s.data)

/-- The characters removed by the splitter's sanitization regex
`re.sub(r'[\\/*?:"<>|]', '', heading_text)`. -/
def illegalFilenameChar (c : Char) : Bool :=
  c == '\\' || c == '/' || c == '*' || c == '?' || c == ':' ||
  c == '"' || c == '<' || c == '>' || c == '|'

/-- `re.sub(r'[\\/*?:"<>|]', '', s)`: remove illegal filename characters. -/
def sanitize (s : String) : String :=
  ⟨s.data.filter (fun c => !illegalFilenameChar c)⟩

/-- `os.path.join(a, b)` (POSIX semantics, one component). -/
def path_join (a b : String) : String :=
  if b.data.head? = some '/' then b
  else if a = "" then b
  else if a.data.getLast? = some '/' then a ++ b
  else a ++ "/" ++ b

/-- `os.path.basename(p)` (POSIX): the part after the last `/`. -/
def basename (s : String) : String :=
  ⟨s.data.foldl (fun acc c => if c = '/' then [] else acc ++ [c]) []⟩

/-- Index of the last occurrence of `c`, like Python's `str.rfind`. -/
def lastIdxOf (c : Char) : List Char → Option Nat
  | [] => none
  | x :: rest =>
    match lastIdxOf c rest with
    | some i => some (i + 1)
    | none => if x = c then some 0 else none

/-- The root part of `os.path.splitext(p)` (POSIX): split at the last dot,
unless all characters between the last `/` and that dot are dots. -/
def splitextRoot (s : String) : String :=
  match lastIdxOf '.' s.data with
  | none => s
  | some d =>
    let start : Nat :=
      match lastIdxOf '/' s.data with
      | none => 0
      | some si => si + 1
    if start ≤ d ∧
        (List.range (d - start)).any (fun j => s.data.getD (start + j) '.' ≠ '.') then
      ⟨s.data.take d⟩
    else s

/-- `sep.join pieces` on character lists (Python's `str.join`). -/
def joinSep (sep : List Char) : List (List Char) → List Char
  | [] => []
  | [x] => x
  | x :: y :: t => x ++ sep ++ joinSep sep (y :: t)

/-- Greedy left-to-right split on a (nonempty) literal pattern, Python's
`str.split(pat)` semantics.  `str.replace(pat, rep)` for a nonempty literal
pattern is `rep.join(s.split(pat))`. -/
def splitOnList (pat : List Char) : List Char → List (List Char)
  | [] => [[]]
  | c :: rest =>
    if hp : pat ≠ [] ∧ pat <+: c :: rest then
      [] :: splitOnList pat ((c :: rest).drop pat.length)
    else
      match splitOnList pat rest with
      | [] => [[c]]
      | h :: t => (c :: h) :: t
termination_by l => l.length
decreasing_by
  · simp only [List.length_drop, List.length_cons]
    have : pat.length ≠ 0 := fun h => hp.1 (List.eq_nil_of_length_eq_zero h)
    omega
  · simp

/-- Python `s.replace(pat, rep)` for the nonempty literal pattern used by the
code (`<NEXT_NOTE_LINK>`): every greedy left-to-right occurrence of `pat` is
replaced by `rep`. -/
def pyReplace (s pat rep : String) : String :=
  ⟨joinSep rep.data (splitOnList pat.data s.data)⟩

/-- The placeholder token of the resources template. -/
def TOK : String := "<NEXT_NOTE_LINK>"

/-- `heading_str = "#" * int(heading_lvl)`. -/
def heading_str (lvl : Nat) : String := ⟨List.replicate lvl '#'⟩

/-- `line.startswith(heading_str + " ")`: is `line` a depth-`lvl` split
boundary? -/
def isSplitLine (lvl : Nat) (line : String) : Bool :=
  pyStartsWith line (heading_str lvl ++ " ")

/-- `[idx for idx, line in enumerate(lines) if line.startswith(heading_str + " ")]`,
with `i` the index of the first line of `l` in the whole document. -/
def split_indicesFrom (lvl : Nat) : List String → Nat → List Nat
  | [], _ => []
  | line :: rest, i =>
    if isSplitLine lvl line then i :: split_indicesFrom lvl rest (i + 1)
    else split_indicesFrom lvl rest (i + 1)

/-- The line indices of depth-`lvl` headings, in order. -/
def split_indices (lvl : Nat) (lines : List String) : List Nat :=
  split_indicesFrom lvl lines 0

/-- `end_index = split_indices[i + 1] if (i + 1) < len(split_indices) else len(lines)`:
the half-open index range of each chunk. -/
def chunkRanges (n : Nat) : List Nat → List (Nat × Nat)
  | [] => []
  | [a] => [(a, n)]
  | a :: b :: rest => (a, b) :: chunkRanges n (b :: rest)

/-- `chunk_lines = lines[start_index:end_index]`. -/
def chunk_lines_of (lines : List String) (r : Nat × Nat) : List String :=
  (lines.drop r.1).take (r.2 - r.1)

/-- The ordered chunks the splitter produces from the document's lines. -/
def chunksOf (lvl : Nat) (lines : List String) : List (List String) :=
  (chunkRanges lines.length (split_indices lvl lines)).map (chunk_lines_of lines)

/-- `heading_text = chunk_lines[0].lstrip("#").strip()`. -/
def heading_text_of (chunk : List String) : String :=
  pyStrip ⟨(chunk.headD "").data.dropWhile (fun c => c = '#')⟩

/-- `safe_heading = re.sub(r'[\\/*?:"<>|]', '', heading_text)`. -/
def safe_heading_of (chunk : List String) : String :=
  sanitize (heading_text_of chunk)

/-- `note_file_path = os.path.join(outdir_path, f"{safe_heading}.md")`. -/
def note_path_of (outdir : String) (chunk : List String) : String :=
  path_join outdir (safe_heading_of chunk ++ ".md")

/-- The content written for a chunk: `"\n".join(chunk_lines)` plus `"\n"`. -/
def note_content_of (chunk : List String) : String :=
  ⟨joinSep ['\n'] (chunk.map String.data) ++ ['\n']⟩

/-- The file system, as an association list from paths to file contents. -/
abbrev FS := List (String × String)

/-- Reading a file: `none` models `FileNotFoundError`. -/
def fsRead? (fs : FS) (p : String) : Option String :=
  (fs.find? (fun e => e.1 = p)).map (fun e => e.2)

/-- Writing a file: create or overwrite (`open(p, "w")`). -/
def fsWrite : FS → String → String → FS
  | [], p, c => [(p, c)]
  | e :: rest, p, c => if e.1 = p then (p, c) :: rest else e :: fsWrite rest p c

/-- `step_2`: split the document's lines into chunks at depth-`lvl` headings,
write one note file per chunk, and return the updated file system together
with the list of note file paths in order of appearance. -/
def step_2 (lines : List String) (outdir : String) (lvl : Nat) (fs : FS) :
    FS × List String :=
  (chunksOf lvl lines).foldl
    (fun acc chunk =>
      (fsWrite acc.1 (note_path_of outdir chunk) (note_content_of chunk),
       acc.2 ++ [note_path_of outdir chunk]))
    (fs, [])

/-- `step_3`: for each note path ending in `.md` (case-insensitively), read
its content and write back `yaml_template + "\n\n" + content`, where
`yaml_template` is the metadata file's text stripped of surrounding
whitespace.  A missing note file models Python's uncaught read error. -/
def step_3 : List String → String → FS → Option FS
  | [], _, fs => some fs
  | note_path :: rest, metadata_raw, fs =>
    if pyEndsWith (pyLower note_path) ".md" then
      match fsRead? fs note_path with
      | none => none
      | some original =>
        step_3 rest metadata_raw
          (fsWrite fs note_path (pyStrip metadata_raw ++ "\n\n" ++ original))
    else step_3 rest metadata_raw fs

/-- The text substituted for the placeholder at position `i`:
a wiki-link to the next note's extensionless base name, or `"N/A"` for the
last note. -/
def next_note_link (note_files : List String) (i : Nat) : String :=
  if i < note_files.length - 1 then
    "[[" ++ splitextRoot (basename (note_files.getD (i + 1) "")) ++ "]]"
  else "N/A"

/-- `resources_base.replace("<NEXT_NOTE_LINK>", link)`. -/
def resources_content (resources_base link : String) : String :=
  pyReplace resources_base TOK link

/-- The content written back for one note in `step_4`:
`f"{original_content}\n\n{resources_content}\n"`. -/
def step_4_new_content (resources_base link original : String) : String :=
  original ++ "\n\n" ++ resources_content resources_base link ++ "\n"

/-- The loop of `step_4`, with `i` the position (in `note_files`) of the
first note of the remaining list. -/
def step_4From (note_files : List String) (resources_base : String) :
    List String → Nat → FS → Option FS
  | [], _, fs => some fs
  | current_note :: rest, i, fs =>
    match fsRead? fs current_note with
    | none => none
    | some original =>
      step_4From note_files resources_base rest (i + 1)
        (fsWrite fs current_note
          (step_4_new_content resources_base (next_note_link note_files i) original))

/-- `step_4`: `for i, current_note in enumerate(note_files)`, append the
substituted resources section to each note; `resources_base` is the
resources file's text stripped of surrounding whitespace. -/
def step_4 (note_files : List String) (resources_raw : String) (fs : FS) :
    Option FS :=
  step_4From note_files (pyStrip resources_raw) note_files 0 fs

/-- The pipeline from `main` after conversion: run `step_2`; if it produced
no notes, stop cleanly; otherwise run `step_3` then `step_4`. -/
def run_steps_2_to_4 (lines : List String) (outdir : String) (lvl : Nat)
    (metadata_raw resources_raw : String) (fs : FS) : Option FS :=
  let r := step_2 lines outdir lvl fs
  if r.2.isEmpty then some r.1
  else
    match step_3 r.2 metadata_raw r.1 with
    | none => none
    | some fs3 => step_4 r.2 resources_raw fs3

/-- `k`-fold metadata prepend: the file content after the metadata template
has been prepended `k` times. -/
def prependN (tpl : String) : Nat → String → String
  | 0, s => s
  | k + 1, s => tpl ++ "\n\n" ++ prependN tpl k s

/-- The links substituted for the occurrences of path `p` in the remaining
note list, in processing order; `i` is the position (in `note_files`) of the
first note of the remaining list.  One entry per occurrence of `p`. -/
def occLinks (note_files : List String) : List String → Nat → String → List String
  | [], _, _ => []
  | q :: rest, i, p =>
    if q = p then
      next_note_link note_files i :: occLinks note_files rest (i + 1) p
    else occLinks note_files rest (i + 1) p

/-- Iterated resources append: the file content after `step_4` has appended
the substituted resources section once per link, in order. -/
def appendLinks (resources_base : String) : List String → String → String
  | [], s => s
  | link :: ls, s => appendLinks resources_base ls (step_4_new_content resources_base link s)

/-- The string ends with a newline, and the character before that final
newline (if any) is not itself a newline. -/
def endsWithExactlyOneNewline (s : String) : Prop :=
  s.data.getLast? = some '\n' ∧ s.data.dropLast.getLast? ≠ some '\n'

/-! ## Supporting lemmas -/

theorem sanitize_data (s : String) :
    (sanitize s).data = s.data.filter (fun c => !illegalFilenameChar c) := rfl

theorem heading_str_data (lvl : Nat) :
    (heading_str lvl).data = List.replicate lvl '#' := rfl

theorem string_data_append (s t : String) : (s ++ t).data = s.data ++ t.data :=
  String.data_append s t

theorem isSplitLine_iff (lvl : Nat) (line : String) :
    isSplitLine lvl line = true ↔
      (List.replicate lvl '#' ++ [' ']) <+: line.data := by
  simp [isSplitLine, pyStartsWith, string_data_append, heading_str_data]

theorem split_indicesFrom_length (lvl : Nat) (l : List String) (i : Nat) :
    (split_indicesFrom lvl l i).length = l.countP (fun s => isSplitLine lvl s) := by
  induction l generalizing i with
  | nil => simp [split_indicesFrom]
  | cons line rest ih =>
    by_cases h : isSplitLine lvl line
    · simp [split_indicesFrom, h, List.countP_cons, ih]
    · simp [split_indicesFrom, h, List.countP_cons, ih]

theorem chunkRanges_length (n : Nat) (idxs : List Nat) :
    (chunkRanges n idxs).length = idxs.length := by
  induction idxs with
  | nil => rfl
  | cons a t ih =>
    cases t with
    | nil => rfl
    | cons b rest => simpa [chunkRanges] using ih

theorem step_2_paths_aux (outdir : String) (cs : List (List String)) :
    ∀ (fs : FS) (acc : List String),
      (cs.foldl
        (fun acc chunk =>
          (fsWrite acc.1 (note_path_of outdir chunk) (note_content_of chunk),
           acc.2 ++ [note_path_of outdir chunk]))
        (fs, acc)).2 = acc ++ cs.map (note_path_of outdir) := by
  induction cs with
  | nil => intro fs acc; simp
  | cons c t ih => intro fs acc; simp [List.foldl_cons, ih]

theorem step_2_paths (lines : List String) (outdir : String) (lvl : Nat)
    (fs : FS) :
    (step_2 lines outdir lvl fs).2 = (chunksOf lvl lines).map (note_path_of outdir) := by
  simpa using step_2_paths_aux outdir (chunksOf lvl lines) fs []

/-! ## Claims C9, C2, C1 -/

/-- C9: the filename sanitization is idempotent, and its output never
contains any of the forbidden characters `\ / * ? : " < > |`. -/
theorem claim_C9_sanitize_idempotent_and_clean (s : String) :
    sanitize (sanitize s) = sanitize s ∧
      ∀ c ∈ (sanitize s).data, illegalFilenameChar c = false := by
  constructor
  · apply congrArg String.mk
    rw [sanitize_data, List.filter_filter]
    apply List.filter_congr
    intro c _
    simp
  · intro c hc
    rw [sanitize_data, List.mem_filter] at hc
    simpa using hc.2

/-- C2: a line whose heading marker run is deeper than `lvl` (it starts with
at least `lvl + 1` marker characters) is never a depth-`lvl` split boundary. -/
theorem claim_C2_deeper_heading_not_boundary (lvl : Nat) (line : String)
    (hlvl : 1 ≤ lvl)
    (hdeep : pyStartsWith line (heading_str (lvl + 1)) = true) :
    isSplitLine lvl line = false := by
  have _ := hlvl
  by_contra hcon
  rw [Bool.not_eq_false, isSplitLine_iff] at hcon
  have hdeep' : List.replicate (lvl + 1) '#' <+: line.data := by
    simpa [pyStartsWith, heading_str_data] using hdeep
  have heq : List.replicate lvl '#' ++ [' '] = List.replicate (lvl + 1) '#' := by
    rcases List.prefix_or_prefix_of_prefix hcon hdeep' with h1 | h1
    · exact h1.eq_of_length (by simp)
    · exact (h1.eq_of_length (by simp)).symm
  rw [List.replicate_succ' lvl '#'] at heq
  have : (' ' : Char) = '#' := by
    have := List.append_cancel_left heq
    simpa using this
  simp at this

/-- C1: for every document and heading level `lvl ≥ 1`, the number of note
paths returned by `step_2` equals the number of lines that start with the
depth-`lvl` heading prefix followed by a space. -/
theorem claim_C1_note_count (lines : List String) (outdir : String) (lvl : Nat)
    (fs : FS) (hlvl : 1 ≤ lvl) :
    (step_2 lines outdir lvl fs).2.length =
      lines.countP (fun l => pyStartsWith l (heading_str lvl ++ " ")) := by
  have _ := hlvl
  rw [step_2_paths, List.length_map, chunksOf, List.length_map, chunkRanges_length]
  exact split_indicesFrom_length lvl lines 0

/-- Witness for C2 at a concrete input: `"## Foo"` is not a depth-1 boundary. -/
theorem claim_C2_witness :
    1 ≤ 1 ∧ pyStartsWith "## Foo" (heading_str (1 + 1)) = true ∧
      isSplitLine 1 "## Foo" = false :=
  ⟨by decide, by decide,
    claim_C2_deeper_heading_not_boundary 1 "## Foo" (by decide) (by decide)⟩

/-- Witness for C1 at a concrete input: two of the four lines are depth-1
headings, and `step_2` returns two note paths. -/
theorem claim_C1_witness :
    1 ≤ 1 ∧
      (step_2 ["# A", "x", "## B", "# C"] "notes" 1 []).2.length =
        (["# A", "x", "## B", "# C"] : List String).countP
          (fun l => pyStartsWith l (heading_str 1 ++ " ")) :=
  ⟨by decide, claim_C1_note_count ["# A", "x", "## B", "# C"] "notes" 1 [] (by decide)⟩

/-! ## Support for C3: the chunks partition the document's tail -/

theorem split_indicesFrom_facts (lvl : Nat) (l : List String) (i : Nat) :
    ∀ x ∈ split_indicesFrom lvl l i,
      i ≤ x ∧ x - i < l.length ∧ isSplitLine lvl (l.getD (x - i) "") = true := by
  induction l generalizing i with
  | nil => intro x hx; simp [split_indicesFrom] at hx
  | cons line rest ih =>
    intro x hx
    by_cases h : isSplitLine lvl line
    · rw [split_indicesFrom, if_pos h] at hx
      rcases List.mem_cons.mp hx with rfl | hx'
      · simpa using h
      · rcases ih (i + 1) x hx' with ⟨h1, h2, h3⟩
        refine ⟨by omega, by simp; omega, ?_⟩
        have hxi : x - i = (x - (i + 1)) + 1 := by omega
        rw [hxi, List.getD_cons_succ]
        exact h3
    · rw [split_indicesFrom, if_neg h] at hx
      rcases ih (i + 1) x hx with ⟨h1, h2, h3⟩
      refine ⟨by omega, by simp; omega, ?_⟩
      have hxi : x - i = (x - (i + 1)) + 1 := by omega
      rw [hxi, List.getD_cons_succ]
      exact h3

theorem split_indicesFrom_chain (lvl : Nat) (l : List String) (i : Nat) :
    List.Chain' (· < ·) (split_indicesFrom lvl l i) := by
  induction l generalizing i with
  | nil => simp [split_indicesFrom]
  | cons line rest ih =>
    by_cases h : isSplitLine lvl line
    · rw [split_indicesFrom, if_pos h]
      rw [List.chain'_cons']
      refine ⟨?_, ih (i + 1)⟩
      intro b hb
      have hmem : b ∈ split_indicesFrom lvl rest (i + 1) := List.mem_of_mem_head? hb
      have := (split_indicesFrom_facts lvl rest (i + 1) b hmem).1
      omega
    · rw [split_indicesFrom, if_neg h]
      exact ih (i + 1)

theorem chunkRanges_facts (n : Nat) (idxs : List Nat)
    (hchain : List.Chain' (· < ·) idxs) (hbound : ∀ x ∈ idxs, x < n) :
    ∀ r ∈ chunkRanges n idxs, r.1 ∈ idxs ∧ r.1 < r.2 ∧ r.2 ≤ n := by
  induction idxs with
  | nil => intro r hr; simp [chunkRanges] at hr
  | cons a t ih =>
    cases t with
    | nil =>
      intro r hr
      rw [chunkRanges] at hr
      rcases List.mem_singleton.mp hr with rfl
      exact ⟨List.mem_singleton_self a, hbound a (List.mem_singleton_self a), le_refl n⟩
    | cons b rest =>
      intro r hr
      rw [chunkRanges] at hr
      rcases List.mem_cons.mp hr with rfl | hr'
      · refine ⟨List.mem_cons_self a _, ?_, ?_⟩
        · exact (List.chain'_cons.mp hchain).1
        · exact le_of_lt (hbound b (List.mem_cons_of_mem a (List.mem_cons_self b rest)))
      · have ih' := ih (List.chain'_cons.mp hchain).2
          (fun x hx => hbound x (List.mem_cons_of_mem a hx)) r hr'
        exact ⟨List.mem_cons_of_mem a ih'.1, ih'.2⟩

theorem join_chunkRanges (l : List String) (a : Nat) (rest : List Nat)
    (hchain : List.Chain' (· < ·) (a :: rest))
    (hbound : ∀ x ∈ a :: rest, x < l.length) :
    ((chunkRanges l.length (a :: rest)).map (chunk_lines_of l)).flatten = l.drop a := by
  induction rest generalizing a with
  | nil =>
    simp only [chunkRanges, List.map_cons, List.map_nil, List.flatten_cons, List.flatten_nil,
      List.append_nil, chunk_lines_of]
    rw [← List.length_drop]
    exact List.take_length _
  | cons b rest' ih =>
    simp only [chunkRanges, List.map_cons, List.flatten_cons]
    have hab : a < b := (List.chain'_cons.mp hchain).1
    have ihb : ((chunkRanges l.length (b :: rest')).map (chunk_lines_of l)).flatten = l.drop b :=
      ih b (List.chain'_cons.mp hchain).2 (fun x hx => hbound x (List.mem_cons_of_mem a hx))
    rw [ihb]
    show (l.drop a).take (b - a) ++ l.drop b = l.drop a
    have hdd : l.drop b = (l.drop a).drop (b - a) := by
      rw [List.drop_drop]
      congr 1
      omega
    rw [hdd]
    exact List.take_append_drop _ _

/-- C3: when the document has at least one depth-`lvl` heading (first one at
line `i0`), the chunks concatenate exactly to the document's lines from `i0`
to the end (no gaps, no overlaps, everything before `i0` dropped), there is
one chunk per matching heading, and every chunk is nonempty and starts with a
matching heading line. -/
theorem claim_C3_chunks_partition (lvl : Nat) (lines : List String)
    (i0 : Nat) (tl : List Nat)
    (h : split_indices lvl lines = i0 :: tl) :
    (chunksOf lvl lines).flatten = lines.drop i0 ∧
      (chunksOf lvl lines).length = (split_indices lvl lines).length ∧
      ∀ c ∈ chunksOf lvl lines,
        c ≠ [] ∧ isSplitLine lvl (c.headD "") = true := by
  have hchain : List.Chain' (· < ·) (split_indices lvl lines) :=
    split_indicesFrom_chain lvl lines 0
  have hbound : ∀ x ∈ split_indices lvl lines, x < lines.length := by
    intro x hx
    have := (split_indicesFrom_facts lvl lines 0 x hx).2.1
    omega
  refine ⟨?_, ?_, ?_⟩
  · rw [chunksOf, h]
    exact join_chunkRanges lines i0 tl (h ▸ hchain) (h ▸ hbound)
  · rw [chunksOf, List.length_map, chunkRanges_length]
  · intro c hc
    rw [chunksOf] at hc
    rcases List.mem_map.mp hc with ⟨r, hr, rfl⟩
    rcases chunkRanges_facts lines.length (split_indices lvl lines) hchain hbound r hr
      with ⟨hmem, hlt, hle⟩
    have hr1 : r.1 < lines.length := lt_of_lt_of_le hlt hle
    have hcons : lines.drop r.1 = lines[r.1] :: lines.drop (r.1 + 1) :=
      List.drop_eq_getElem_cons hr1
    have hpos : ∃ k, r.2 - r.1 = k + 1 := ⟨r.2 - r.1 - 1, by omega⟩
    rcases hpos with ⟨k, hk⟩
    have hsplit : isSplitLine lvl (lines.getD r.1 "") = true := by
      have := (split_indicesFrom_facts lvl lines 0 r.1 hmem).2.2
      simpa using this
    rw [List.getD_eq_getElem lines "" hr1] at hsplit
    constructor
    · rw [chunk_lines_of, hcons, hk, List.take_succ_cons]
      simp
    · rw [chunk_lines_of, hcons, hk, List.take_succ_cons]
      simpa using hsplit

/-- Witness for C3 at a concrete input. -/
theorem claim_C3_witness :
    split_indices 1 ["intro", "# A", "foo", "# B"] = [1, 3] ∧
      ((chunksOf 1 ["intro", "# A", "foo", "# B"]).flatten =
          (["intro", "# A", "foo", "# B"] : List String).drop 1 ∧
        (chunksOf 1 ["intro", "# A", "foo", "# B"]).length =
          (split_indices 1 ["intro", "# A", "foo", "# B"]).length ∧
        ∀ c ∈ chunksOf 1 ["intro", "# A", "foo", "# B"],
          c ≠ [] ∧ isSplitLine 1 (c.headD "") = true) :=
  ⟨by decide,
    claim_C3_chunks_partition 1 ["intro", "# A", "foo", "# B"] 1 [3] (by decide)⟩

/-! ## C8: no matching heading means no notes and a clean early stop -/

theorem split_indicesFrom_eq_nil (lvl : Nat) (lines : List String)
    (h : ∀ l ∈ lines, isSplitLine lvl l = false) :
    ∀ i, split_indicesFrom lvl lines i = [] := by
  induction lines with
  | nil => intro i; rfl
  | cons line rest ih =>
    intro i
    rw [split_indicesFrom, if_neg]
    · exact ih (fun l hl => h l (List.mem_cons_of_mem line hl)) (i + 1)
    · simp [h line (List.mem_cons_self line rest)]

/-- C8: on a document with no depth-`lvl` heading line, the splitter writes
nothing and returns the empty path list, and the pipeline stops cleanly right
after `step_2`, leaving the file system untouched and never running `step_3`
or `step_4`. -/
theorem claim_C8_zero_match_early_exit (lvl : Nat) (lines : List String)
    (outdir metadata_raw resources_raw : String) (fs : FS)
    (h : ∀ l ∈ lines, isSplitLine lvl l = false) :
    (step_2 lines outdir lvl fs).2 = [] ∧
      (step_2 lines outdir lvl fs).1 = fs ∧
      run_steps_2_to_4 lines outdir lvl metadata_raw resources_raw fs = some fs := by
  have hchunks : chunksOf lvl lines = [] := by
    rw [chunksOf, split_indices, split_indicesFrom_eq_nil lvl lines h 0]
    rfl
  have hstep2 : step_2 lines outdir lvl fs = (fs, []) := by
    rw [step_2, hchunks]
    rfl
  refine ⟨by rw [hstep2], by rw [hstep2], ?_⟩
  rw [run_steps_2_to_4, hstep2]
  rfl

/-- Witness for C8 at a concrete input with no depth-1 heading. -/
theorem claim_C8_witness :
    (∀ l ∈ (["hello", "## deep"] : List String), isSplitLine 1 l = false) ∧
      ((step_2 ["hello", "## deep"] "notes" 1 [("keep", "me")]).2 = [] ∧
        (step_2 ["hello", "## deep"] "notes" 1 [("keep", "me")]).1 = [("keep", "me")] ∧
        run_steps_2_to_4 ["hello", "## deep"] "notes" 1 "m" "r" [("keep", "me")] =
          some [("keep", "me")]) :=
  ⟨by decide,
    claim_C8_zero_match_early_exit 1 ["hello", "## deep"] "notes" "m" "r"
      [("keep", "me")] (by decide)⟩

/-! ## File-system lemmas and the `step_3` specification -/

theorem fsRead?_fsWrite_self (fs : FS) (p c : String) :
    fsRead? (fsWrite fs p c) p = some c := by
  induction fs with
  | nil => simp [fsWrite, fsRead?, List.find?]
  | cons e rest ih =>
    by_cases h : e.1 = p
    · simp [fsWrite, h, fsRead?, List.find?]
    · simp only [fsWrite, if_neg h, fsRead?, List.find?_cons]
      rw [fsRead?] at ih
      simpa [h] using ih

theorem fsRead?_fsWrite_ne (fs : FS) (p c q : String) (h : q ≠ p) :
    fsRead? (fsWrite fs p c) q = fsRead? fs q := by
  have h' : p ≠ q := fun he => h he.symm
  induction fs with
  | nil => simp [fsWrite, fsRead?, List.find?, h']
  | cons e rest ih =>
    by_cases he : e.1 = p
    · rw [fsWrite, if_pos he]
      have he' : e.1 ≠ q := he ▸ h'
      simp [fsRead?, List.find?, h', he']
    · rw [fsWrite, if_neg he]
      by_cases heq : e.1 = q
      · simp [fsRead?, List.find?, heq]
      · rw [fsRead?] at ih
        simp only [fsRead?, List.find?_cons]
        simpa [heq] using ih

theorem fsRead?_fsWrite_isSome (fs : FS) (p c q : String)
    (h : (fsRead? fs q).isSome = true) :
    (fsRead? (fsWrite fs p c) q).isSome = true := by
  by_cases hq : q = p
  · subst hq; rw [fsRead?_fsWrite_self]; rfl
  · rw [fsRead?_fsWrite_ne fs p c q hq]; exact h

theorem prependN_absorb (tpl : String) (k : Nat) (s : String) :
    prependN tpl k (tpl ++ "\n\n" ++ s) = prependN tpl (k + 1) s := by
  induction k with
  | zero => rfl
  | succ k ih => simp only [prependN, ih]

/-- The full specification of `step_3`: it succeeds whenever every listed
note ends in `.md` and is readable, and afterwards every file's content has
the stripped metadata template prepended once per occurrence of its path in
the note list. -/
theorem step_3_spec (raw : String) (files : List String) :
    ∀ fs : FS,
      (∀ q ∈ files, pyEndsWith (pyLower q) ".md" = true) →
      (∀ q ∈ files, (fsRead? fs q).isSome = true) →
      ∃ fs', step_3 files raw fs = some fs' ∧
        ∀ p old, fsRead? fs p = some old →
          fsRead? fs' p = some (prependN (pyStrip raw) (files.count p) old) := by
  induction files with
  | nil =>
    intro fs _ _
    exact ⟨fs, rfl, fun p old hp => by simpa [prependN] using hp⟩
  | cons q rest ih =>
    intro fs hmd hread
    have hq : pyEndsWith (pyLower q) ".md" = true :=
      hmd q (List.mem_cons_self q rest)
    have hqr : (fsRead? fs q).isSome = true :=
      hread q (List.mem_cons_self q rest)
    rcases Option.isSome_iff_exists.mp hqr with ⟨oldq, holdq⟩
    set fs1 := fsWrite fs q (pyStrip raw ++ "\n\n" ++ oldq) with hfs1
    have hread1 : ∀ x ∈ rest, (fsRead? fs1 x).isSome = true := by
      intro x hx
      exact fsRead?_fsWrite_isSome fs q _ x (hread x (List.mem_cons_of_mem q hx))
    rcases ih fs1 (fun x hx => hmd x (List.mem_cons_of_mem q hx)) hread1
      with ⟨fs', hfs', hprop⟩
    refine ⟨fs', ?_, ?_⟩
    · rw [step_3, if_pos hq, holdq]
      exact hfs'
    · intro p old hp
      by_cases hpq : p = q
      · have holdq2 : fsRead? fs p = some oldq := by rw [hpq]; exact holdq
        have holdeq : old = oldq := by
          rw [holdq2] at hp
          exact (Option.some_inj.mp hp).symm
        subst holdeq
        have h1 : fsRead? fs1 p = some (pyStrip raw ++ "\n\n" ++ old) := by
          rw [hpq]
          exact fsRead?_fsWrite_self fs q _
        have h2 := hprop p _ h1
        rw [h2, prependN_absorb, hpq, List.count_cons_self]
      · have h1 : fsRead? fs1 p = fsRead? fs p := fsRead?_fsWrite_ne fs q _ p hpq
        have h2 := hprop p old (h1.trans hp)
        rw [h2, List.count_cons_of_ne hpq]

/-- C4: for every note list without path collisions in which every path ends
in `.md` (as all splitter-produced paths do) and every note is readable,
`step_3` succeeds and rewrites every note, byte for byte, to the loaded
metadata template text followed by one blank line followed by the note's
previous content — the same transformation for every note. -/
theorem claim_C4_metadata_prepend (files : List String) (metadata_raw : String)
    (fs : FS)
    (hmd : ∀ q ∈ files, pyEndsWith (pyLower q) ".md" = true)
    (hread : ∀ q ∈ files, (fsRead? fs q).isSome = true)
    (hnodup : files.Nodup) :
    ∃ fs', step_3 files metadata_raw fs = some fs' ∧
      ∀ p ∈ files, ∀ old, fsRead? fs p = some old →
        fsRead? fs' p = some (pyStrip metadata_raw ++ "\n\n" ++ old) := by
  rcases step_3_spec metadata_raw files fs hmd hread with ⟨fs', h1, h2⟩
  refine ⟨fs', h1, ?_⟩
  intro p hp old hold
  have hcount : files.count p = 1 := List.count_eq_one_of_mem hnodup hp
  have h3 := h2 p old hold
  rw [hcount] at h3
  simpa [prependN] using h3

/-- Witness for C4 at a concrete input. -/
theorem claim_C4_witness :
    (∀ q ∈ (["notes/A.md", "notes/B.md"] : List String),
        pyEndsWith (pyLower q) ".md" = true) ∧
      (∃ fs', step_3 ["notes/A.md", "notes/B.md"] "meta"
            [("notes/A.md", "a\n"), ("notes/B.md", "b\n")] = some fs' ∧
          ∀ p ∈ (["notes/A.md", "notes/B.md"] : List String), ∀ old,
            fsRead? [("notes/A.md", "a\n"), ("notes/B.md", "b\n")] p = some old →
              fsRead? fs' p = some (pyStrip "meta" ++ "\n\n" ++ old)) :=
  ⟨by decide,
    claim_C4_metadata_prepend ["notes/A.md", "notes/B.md"] "meta"
      [("notes/A.md", "a\n"), ("notes/B.md", "b\n")]
      (by decide) (by decide) (by decide)⟩

/-- The specification of the `step_4` loop: it succeeds whenever every
remaining note is readable, and afterwards a file's content has the
substituted resources section appended once per occurrence of its path in
the remaining list, in processing order. -/
theorem step_4From_spec (note_files : List String) (base : String) :
    ∀ (suffix : List String) (i : Nat) (fs : FS),
      (∀ q ∈ suffix, (fsRead? fs q).isSome = true) →
      ∀ (p old : String), fsRead? fs p = some old →
      ∃ fs', step_4From note_files base suffix i fs = some fs' ∧
        fsRead? fs' p =
          some (appendLinks base (occLinks note_files suffix i p) old) := by
  intro suffix
  induction suffix with
  | nil =>
    intro i fs _ p old hp
    exact ⟨fs, rfl, by simpa [appendLinks, occLinks] using hp⟩
  | cons q rest ih =>
    intro i fs hread p old hp
    have hqr : (fsRead? fs q).isSome = true := hread q (List.mem_cons_self q rest)
    rcases Option.isSome_iff_exists.mp hqr with ⟨oldq, holdq⟩
    set fs1 := fsWrite fs q
      (step_4_new_content base (next_note_link note_files i) oldq) with hfs1
    have hread1 : ∀ x ∈ rest, (fsRead? fs1 x).isSome = true := fun x hx =>
      fsRead?_fsWrite_isSome fs q _ x (hread x (List.mem_cons_of_mem q hx))
    by_cases hpq : p = q
    · have holdq2 : fsRead? fs p = some oldq := by rw [hpq]; exact holdq
      have holdeq : old = oldq := by
        rw [holdq2] at hp
        exact (Option.some_inj.mp hp).symm
      subst holdeq
      have h1 : fsRead? fs1 p =
          some (step_4_new_content base (next_note_link note_files i) old) := by
        rw [hpq]
        exact fsRead?_fsWrite_self fs q _
      rcases ih (i + 1) fs1 hread1 p _ h1 with ⟨fs', hstep, hprop⟩
      refine ⟨fs', ?_, ?_⟩
      · rw [step_4From, holdq]
        exact hstep
      · rw [hprop, occLinks, if_pos hpq.symm]
        rfl
    · have h1 : fsRead? fs1 p = fsRead? fs p := fsRead?_fsWrite_ne fs q _ p hpq
      rcases ih (i + 1) fs1 hread1 p old (h1.trans hp) with ⟨fs', hstep, hprop⟩
      refine ⟨fs', ?_, ?_⟩
      · rw [step_4From, holdq]
        exact hstep
      · rw [hprop, occLinks, if_neg (fun h => hpq h.symm)]

theorem occLinks_length (note_files : List String) :
    ∀ (suffix : List String) (i : Nat) (p : String),
      (occLinks note_files suffix i p).length = suffix.count p := by
  intro suffix
  induction suffix with
  | nil => intro i p; rfl
  | cons q rest ih =>
    intro i p
    by_cases h : q = p
    · rw [occLinks, if_pos h, List.length_cons, ih, h, List.count_cons_self]
    · rw [occLinks, if_neg h, ih, List.count_cons_of_ne (fun hh => h hh.symm)]

/-- C10: the splitter's path list has one entry per chunk (so two headings
sanitizing to the same base name yield duplicate entries of the same path);
`step_3` prepends the metadata template to a file once per occurrence of its
path in the note list; and `step_4` appends a substituted resources section
to a file once per occurrence of its path in the note list. -/
theorem claim_C10_collision_duplicates :
    (∀ (lines : List String) (outdir : String) (lvl : Nat) (fs : FS),
        (step_2 lines outdir lvl fs).2 =
          (chunksOf lvl lines).map (note_path_of outdir)) ∧
      (∀ (lines : List String) (outdir : String) (lvl : Nat) (fs : FS)
          (p : String),
          ((step_2 lines outdir lvl fs).2).count p =
            (chunksOf lvl lines).countP (fun c => note_path_of outdir c == p)) ∧
      (∀ (files : List String) (raw : String) (fs : FS) (p old : String),
          (∀ q ∈ files, pyEndsWith (pyLower q) ".md" = true) →
          (∀ q ∈ files, (fsRead? fs q).isSome = true) →
          fsRead? fs p = some old →
          ∃ fs', step_3 files raw fs = some fs' ∧
            fsRead? fs' p = some (prependN (pyStrip raw) (files.count p) old)) ∧
      (∀ (files : List String) (raw : String) (fs : FS) (p old : String),
          (∀ q ∈ files, (fsRead? fs q).isSome = true) →
          fsRead? fs p = some old →
          ∃ fs', step_4 files raw fs = some fs' ∧
            fsRead? fs' p =
              some (appendLinks (pyStrip raw) (occLinks files files 0 p) old) ∧
            (occLinks files files 0 p).length = files.count p) := by
  refine ⟨fun lines outdir lvl fs => step_2_paths lines outdir lvl fs, ?_, ?_, ?_⟩
  · intro lines outdir lvl fs p
    rw [step_2_paths, List.count, List.countP_map]
    rfl
  · intro files raw fs p old hmd hread hp
    rcases step_3_spec raw files fs hmd hread with ⟨fs', h1, h2⟩
    exact ⟨fs', h1, h2 p old hp⟩
  · intro files raw fs p old hread hp
    rcases step_4From_spec files (pyStrip raw) files 0 fs hread p old hp
      with ⟨fs', h1, h2⟩
    exact ⟨fs', h1, h2, occLinks_length files files 0 p⟩

/-- Witness for C10 at a concrete collision: the headings `# A/` and `# A`
both sanitize to `A`, the path list contains `notes/A.md` twice, after
`step_3` the template has been prepended twice, and `step_4` appends a
resources section twice. -/
theorem claim_C10_witness :
    ((step_2 ["# A/", "x", "# A"] "notes" 1 []).2 =
        (chunksOf 1 ["# A/", "x", "# A"]).map (note_path_of "notes")) ∧
      ((step_2 ["# A/", "x", "# A"] "notes" 1 []).2).count "notes/A.md" =
        (chunksOf 1 ["# A/", "x", "# A"]).countP
          (fun c => note_path_of "notes" c == "notes/A.md") ∧
      (∃ fs', step_3 ["notes/A.md", "notes/A.md"] "T"
            [("notes/A.md", "# A\n")] = some fs' ∧
          fsRead? fs' "notes/A.md" =
            some (prependN (pyStrip "T")
              ((["notes/A.md", "notes/A.md"] : List String).count "notes/A.md")
              "# A\n")) ∧
      (∃ fs', step_4 ["notes/A.md", "notes/A.md"] "R"
            [("notes/A.md", "# A\n")] = some fs' ∧
          fsRead? fs' "notes/A.md" =
            some (appendLinks (pyStrip "R")
              (occLinks ["notes/A.md", "notes/A.md"] ["notes/A.md", "notes/A.md"]
                0 "notes/A.md")
              "# A\n") ∧
          (occLinks ["notes/A.md", "notes/A.md"] ["notes/A.md", "notes/A.md"]
              0 "notes/A.md").length =
            (["notes/A.md", "notes/A.md"] : List String).count "notes/A.md") :=
  ⟨claim_C10_collision_duplicates.1 ["# A/", "x", "# A"] "notes" 1 [],
    claim_C10_collision_duplicates.2.1 ["# A/", "x", "# A"] "notes" 1 [] "notes/A.md",
    claim_C10_collision_duplicates.2.2.1 ["notes/A.md", "notes/A.md"] "T"
      [("notes/A.md", "# A\n")] "notes/A.md" "# A\n"
      (by decide) (by decide) (by decide),
    claim_C10_collision_duplicates.2.2.2 ["notes/A.md", "notes/A.md"] "R"
      [("notes/A.md", "# A\n")] "notes/A.md" "# A\n"
      (by decide) (by decide)⟩

/-! ## Lemmas about `joinSep` and `splitOnList` (Python `replace` semantics) -/

theorem joinSep_cons_cons (sep x y : List Char) (t : List (List Char)) :
    joinSep sep (x :: y :: t) = x ++ sep ++ joinSep sep (y :: t) := rfl

theorem splitOnList_ne_nil (pat l : List Char) : splitOnList pat l ≠ [] := by
  induction l using splitOnList.induct pat with
  | case1 => simp [splitOnList]
  | case2 c rest hp ih =>
    rw [splitOnList, dif_pos hp]
    simp
  | case3 c rest hp hnil ih => exact absurd hnil ih
  | case4 c rest hp h t hsp ih =>
    rw [splitOnList, dif_neg hp, hsp]
    simp

theorem joinSep_splitOnList (pat : List Char) (l : List Char) :
    joinSep pat (splitOnList pat l) = l := by
  induction l using splitOnList.induct pat with
  | case1 => simp [splitOnList, joinSep]
  | case2 c rest hp ih =>
    rw [splitOnList, dif_pos hp]
    rcases hp.2 with ⟨tail, htail⟩
    have hdrop : (c :: rest).drop pat.length = tail := by
      rw [← htail]
      exact List.drop_left pat tail
    rw [hdrop] at ih ⊢
    cases hsp : splitOnList pat tail with
    | nil => exact absurd hsp (splitOnList_ne_nil pat tail)
    | cons r t' =>
      rw [hsp] at ih
      rw [joinSep_cons_cons, ih]
      simpa using htail
  | case3 c rest hp hnil ih => exact absurd hnil (splitOnList_ne_nil pat rest)
  | case4 c rest hp h t hsp ih =>
    rw [splitOnList, dif_neg hp, hsp]
    rw [hsp] at ih
    cases t with
    | nil =>
      show c :: h = c :: rest
      have : joinSep pat [h] = h := rfl
      rw [this] at ih
      rw [ih]
    | cons y t' =>
      rw [joinSep_cons_cons] at ih ⊢
      rw [← ih]
      simp

theorem splitOnList_head_isPre (pat : List Char) (l : List Char) :
    ∀ h t, splitOnList pat l = h :: t → h <+: l := by
  induction l using splitOnList.induct pat with
  | case1 =>
    intro h t hsp
    rw [splitOnList] at hsp
    injection hsp with h1 _
    subst h1
    exact List.nil_prefix
  | case2 c rest hp ih =>
    intro h t hsp
    rw [splitOnList, dif_pos hp] at hsp
    injection hsp with h1 _
    subst h1
    exact List.nil_prefix
  | case3 c rest hp hnil ih =>
    intro h t _
    exact absurd hnil (splitOnList_ne_nil pat rest)
  | case4 c rest hp h0 t0 hsp ih =>
    intro h t hsp2
    rw [splitOnList, dif_neg hp, hsp] at hsp2
    injection hsp2 with h1 _
    subst h1
    rcases ih h0 t0 hsp with ⟨u, hu⟩
    exact ⟨u, by rw [← hu]; rfl⟩

theorem splitOnList_pieces_no_pat (pat : List Char) (hpat : pat ≠ []) (l : List Char) :
    ∀ p ∈ splitOnList pat l, ¬ pat <:+: p := by
  induction l using splitOnList.induct pat with
  | case1 =>
    intro p hp2 hinf
    rw [splitOnList, List.mem_singleton] at hp2
    subst hp2
    exact hpat (List.eq_nil_of_infix_nil hinf)
  | case2 c rest hp ih =>
    intro p hp2 hinf
    rw [splitOnList, dif_pos hp, List.mem_cons] at hp2
    rcases hp2 with rfl | hp3
    · exact hpat (List.eq_nil_of_infix_nil hinf)
    · exact ih p hp3 hinf
  | case3 c rest hp hnil ih =>
    intro p _ _
    exact absurd hnil (splitOnList_ne_nil pat rest)
  | case4 c rest hp h0 t0 hsp ih =>
    intro p hp2 hinf
    rw [splitOnList, dif_neg hp, hsp, List.mem_cons] at hp2
    rcases hp2 with rfl | hp3
    · rcases List.infix_cons_iff.mp hinf with hpre | hinf'
      · have hh0 : h0 <+: rest := splitOnList_head_isPre pat rest h0 t0 hsp
        rcases hh0 with ⟨u, hu⟩
        have : pat <+: c :: rest := by
          rw [← hu]
          calc pat <+: c :: h0 := hpre
            _ <+: c :: (h0 ++ u) := ⟨u, by simp⟩
        exact hp ⟨hpat, this⟩
      · exact ih h0 (hsp ▸ List.mem_cons_self h0 t0) hinf'
    · exact ih p (hsp ▸ List.mem_cons_of_mem h0 hp3) hinf

theorem splitOnList_lastPiece_suffix (pat : List Char)
    (l : List Char) : (splitOnList pat l).getLastD [] <:+ l := by
  induction l using splitOnList.induct pat with
  | case1 =>
    rw [splitOnList]
    exact List.nil_suffix
  | case2 c rest hp ih =>
    rw [splitOnList, dif_pos hp, List.getLastD_cons]
    have hne := splitOnList_ne_nil pat ((c :: rest).drop pat.length)
    cases hsp : splitOnList pat ((c :: rest).drop pat.length) with
    | nil => exact absurd hsp hne
    | cons r t' =>
      rw [hsp] at ih
      have hd : (r :: t').getLastD [] = (r :: t').getLastD [] := rfl
      have hsuffix : (r :: t').getLastD [] <:+ (c :: rest).drop pat.length := by
        rw [← hsp]
        rw [hsp]
        have h1 : (r :: t').getLastD [] = (t').getLastD r := List.getLastD_cons [] r t'
        rw [List.getLastD_cons]
        rw [List.getLastD_cons] at ih
        exact ih
      rw [List.getLastD_cons]
      calc (t').getLastD r <:+ (c :: rest).drop pat.length := by
            have := hsuffix
            rwa [List.getLastD_cons] at this
        _ <:+ c :: rest := List.drop_suffix pat.length (c :: rest)
  | case3 c rest hp hnil ih => exact absurd hnil (splitOnList_ne_nil pat rest)
  | case4 c rest hp h0 t0 hsp ih =>
    rw [splitOnList, dif_neg hp, hsp]
    cases t0 with
    | nil =>
      have hrec : joinSep pat (splitOnList pat rest) = rest := joinSep_splitOnList pat rest
      rw [hsp] at hrec
      have : h0 = rest := hrec
      subst this
      exact List.suffix_refl _
    | cons y t' =>
      rw [hsp] at ih
      have h1 : ((c :: h0) :: y :: t').getLastD [] = (y :: t').getLastD (c :: h0) :=
        List.getLastD_cons [] (c :: h0) (y :: t')
      rw [h1]
      have h2 : (y :: t').getLastD (c :: h0) = (y :: t').getLastD h0 := by
        cases hgl : (y :: t').getLast? with
        | none => simp at hgl
        | some a => rw [List.getLastD_eq_getLast?, List.getLastD_eq_getLast?, hgl]; rfl
      rw [h2]
      have h3 : (h0 :: y :: t').getLastD [] = (y :: t').getLastD h0 :=
        List.getLastD_cons [] h0 (y :: t')
      rw [h3] at ih
      exact ih.trans (List.suffix_cons c rest)

/-- C5: in `step_4`, the text substituted for the placeholder is the `"N/A"`
sentinel for the last note and the double-bracket wiki-link wrapping the next
note's extensionless base name otherwise; and the substitution (Python
`str.replace`) replaces every greedy occurrence of the token: the template
splits into token-free pieces whose token-joined concatenation is the
template, and the substituted text is those pieces joined by the link. -/
theorem claim_C5_next_note_link (files : List String) (resources_base : String)
    (i : Nat) (hi : i < files.length) :
    (i = files.length - 1 → next_note_link files i = "N/A") ∧
      (i + 1 < files.length →
        next_note_link files i =
          "[[" ++ splitextRoot (basename (files.getD (i + 1) "")) ++ "]]") ∧
      joinSep TOK.data (splitOnList TOK.data resources_base.data) =
        resources_base.data ∧
      (∀ p ∈ splitOnList TOK.data resources_base.data, ¬ TOK.data <:+: p) ∧
      (resources_content resources_base (next_note_link files i)).data =
        joinSep (next_note_link files i).data
          (splitOnList TOK.data resources_base.data) := by
  have _ := hi
  refine ⟨?_, ?_, joinSep_splitOnList TOK.data resources_base.data,
    splitOnList_pieces_no_pat TOK.data (by decide) resources_base.data, rfl⟩
  · intro h
    rw [next_note_link, if_neg]
    omega
  · intro h
    rw [next_note_link, if_pos]
    omega

/-- Witness for C5 at a concrete input: two notes, position 0. -/
theorem claim_C5_witness :
    (0 : Nat) < (["notes/A.md", "notes/B.md"] : List String).length ∧
      ((0 = (["notes/A.md", "notes/B.md"] : List String).length - 1 →
          next_note_link ["notes/A.md", "notes/B.md"] 0 = "N/A") ∧
        (0 + 1 < (["notes/A.md", "notes/B.md"] : List String).length →
          next_note_link ["notes/A.md", "notes/B.md"] 0 =
            "[[" ++ splitextRoot (basename
              ((["notes/A.md", "notes/B.md"] : List String).getD (0 + 1) "")) ++ "]]") ∧
        joinSep TOK.data (splitOnList TOK.data ("next: <NEXT_NOTE_LINK>" : String).data) =
          ("next: <NEXT_NOTE_LINK>" : String).data ∧
        (∀ p ∈ splitOnList TOK.data ("next: <NEXT_NOTE_LINK>" : String).data,
          ¬ TOK.data <:+: p) ∧
        (resources_content "next: <NEXT_NOTE_LINK>"
            (next_note_link ["notes/A.md", "notes/B.md"] 0)).data =
          joinSep (next_note_link ["notes/A.md", "notes/B.md"] 0).data
            (splitOnList TOK.data ("next: <NEXT_NOTE_LINK>" : String).data)) :=
  ⟨by decide,
    claim_C5_next_note_link ["notes/A.md", "notes/B.md"] "next: <NEXT_NOTE_LINK>" 0
      (by decide)⟩

/-! ## Support for C7 and C6: trailing-newline analysis -/

theorem string_eq_empty_of_data (s : String) (h : s.data = []) : s = "" := by
  cases s
  simp only [String.data] at h
  rw [h]

theorem mem_of_getLast?_eq {α : Type} (l : List α) (a : α)
    (h : l.getLast? = some a) : a ∈ l := by
  induction l with
  | nil => simp at h
  | cons b t ih =>
    cases t with
    | nil =>
      simp only [List.getLast?_singleton, Option.some_inj] at h
      rw [h]
      exact List.mem_singleton_self a
    | cons c t' =>
      rw [List.getLast?_cons_cons] at h
      exact List.mem_cons_of_mem b (ih h)

theorem joinSep_concat_ne (sep : List Char) (ps : List (List Char))
    (x : List Char) (hps : ps ≠ []) :
    joinSep sep (ps ++ [x]) = joinSep sep ps ++ sep ++ x := by
  induction ps with
  | nil => exact absurd rfl hps
  | cons p ps' ih =>
    cases ps' with
    | nil => rfl
    | cons q t =>
      have ihq := ih (by simp)
      show p ++ sep ++ joinSep sep ((q :: t) ++ [x]) = joinSep sep (p :: q :: t) ++ sep ++ x
      rw [ihq, joinSep_cons_cons]
      simp [List.append_assoc]

/-- Counterexample to C7 as stated: on the document `["# A", ""]` (a heading
followed by a blank line) the splitter writes `"# A\n\n"`, which ends in two
newlines, not exactly one. -/
theorem claim_C7_counterexample :
    fsRead? (step_2 ["# A", ""] "notes" 1 []).1 "notes/A.md" = some "# A\n\n" ∧
      ¬ endsWithExactlyOneNewline "# A\n\n" := by
  constructor
  · decide
  · intro h
    exact h.2 (by decide)

/-- C7 (amended): the content written for a chunk is the chunk's lines
rejoined with newline separators plus one appended newline; it ends in
exactly one trailing newline provided the chunk's last line is nonempty
(lines produced by `splitlines` contain no newline character). -/
theorem claim_C7_note_content (lvl : Nat) (lines : List String)
    (chunk : List String) (hc : chunk ∈ chunksOf lvl lines) :
    (note_content_of chunk).data =
        joinSep ['\n'] (chunk.map String.data) ++ ['\n'] ∧
      ((∀ s ∈ chunk, '\n' ∉ s.data) → chunk.getLastD "" ≠ "" →
        endsWithExactlyOneNewline (note_content_of chunk)) := by
  have _ := hc
  refine ⟨rfl, ?_⟩
  intro hnl hlast
  rcases List.eq_nil_or_concat chunk with hnil | ⟨cs, lastLine, hcat⟩
  · rw [hnil] at hlast
    exact absurd rfl hlast
  rw [List.concat_eq_append] at hcat
  have hlastLine : chunk.getLastD "" = lastLine := by
    rw [hcat]
    simp
  have hlast_ne : lastLine.data ≠ [] := by
    intro hd
    rw [hlastLine] at hlast
    exact hlast (string_eq_empty_of_data lastLine hd)
  have hlast_nl : lastLine.data.getLast? ≠ some '\n' := by
    intro hgl
    have hmem : '\n' ∈ lastLine.data := mem_of_getLast?_eq lastLine.data '\n' hgl
    have : lastLine ∈ chunk := by
      rw [hcat]
      exact List.mem_append_right cs (List.mem_singleton_self lastLine)
    exact hnl lastLine this hmem
  have hmap : chunk.map String.data = cs.map String.data ++ [lastLine.data] := by
    rw [hcat, List.map_append]
    rfl
  have hJ : (joinSep ['\n'] (chunk.map String.data)).getLast? =
      lastLine.data.getLast? := by
    rw [hmap]
    cases hcs : cs.map String.data with
    | nil => rfl
    | cons p ps =>
      rw [joinSep_concat_ne ['\n'] (p :: ps) lastLine.data (by simp)]
      exact List.getLast?_append_of_ne_nil _ hlast_ne
  have hJne : joinSep ['\n'] (chunk.map String.data) ≠ [] := by
    intro hJnil
    rw [hJnil] at hJ
    exact hlast_ne (List.getLast?_eq_none_iff.mp hJ.symm)
  constructor
  · show (joinSep ['\n'] (chunk.map String.data) ++ ['\n']).getLast? = some '\n'
    rw [List.getLast?_append_of_ne_nil _ (by simp : (['\n'] : List Char) ≠ [])]
    rfl
  · show ((joinSep ['\n'] (chunk.map String.data) ++ ['\n']).dropLast).getLast? ≠ some '\n'
    rw [List.dropLast_concat, hJ]
    exact hlast_nl

/-- Witness for C7 (amended) at a concrete input. -/
theorem claim_C7_witness :
    (["# A", "x"] : List String) ∈ chunksOf 1 ["# A", "x"] ∧
      ((note_content_of ["# A", "x"]).data =
          joinSep ['\n'] ((["# A", "x"] : List String).map String.data) ++ ['\n'] ∧
        ((∀ s ∈ (["# A", "x"] : List String), '\n' ∉ s.data) →
          (["# A", "x"] : List String).getLastD "" ≠ "" →
          endsWithExactlyOneNewline (note_content_of ["# A", "x"]))) :=
  ⟨by decide, claim_C7_note_content 1 ["# A", "x"] ["# A", "x"] (by decide)⟩

theorem head?_dropWhile_false (p : Char → Bool) (l : List Char) (a : Char)
    (h : (l.dropWhile p).head? = some a) : p a = false := by
  induction l with
  | nil => simp at h
  | cons x xs ih =>
    by_cases hx : p x
    · rw [List.dropWhile_cons_of_pos hx] at h
      exact ih h
    · rw [List.dropWhile_cons_of_neg hx] at h
      rw [List.head?_cons, Option.some_inj] at h
      rw [← h]
      exact Bool.eq_false_iff.mpr hx

theorem stripList_getLast_not_space (l : List Char) (c : Char)
    (h : (stripList l).getLast? = some c) : isPySpace c = false := by
  rw [stripList, List.getLast?_reverse] at h
  exact head?_dropWhile_false isPySpace _ c h

theorem link_facts (files : List String) (i : Nat) :
    (next_note_link files i).data ≠ [] ∧
      (next_note_link files i).data.getLast? ≠ some '\n' := by
  rw [next_note_link]
  by_cases h : i < files.length - 1
  · rw [if_pos h]
    have hdata : ("[[" ++ splitextRoot (basename (files.getD (i + 1) "")) ++ "]]").data =
        ("[[" ++ splitextRoot (basename (files.getD (i + 1) ""))).data ++ [']', ']'] := by
      rw [string_data_append]
    rw [hdata]
    constructor
    · simp
    · rw [List.getLast?_append_of_ne_nil _ (by simp : ([']', ']'] : List Char) ≠ [])]
      decide
  · rw [if_neg h]
    exact ⟨by decide, by decide⟩

theorem joinSep_splitOn_getLast (pat sep l : List Char) (hsep_ne : sep ≠ [])
    (hsep_last : sep.getLast? ≠ some '\n') (hl_ne : l ≠ [])
    (hl_last : l.getLast? ≠ some '\n') :
    joinSep sep (splitOnList pat l) ≠ [] ∧
      (joinSep sep (splitOnList pat l)).getLast? ≠ some '\n' := by
  rcases List.eq_nil_or_concat (splitOnList pat l) with hnil | ⟨ps, x, hcat⟩
  · exact absurd hnil (splitOnList_ne_nil pat l)
  rw [List.concat_eq_append] at hcat
  have hx_last : x <:+ l := by
    have := splitOnList_lastPiece_suffix pat l
    rw [hcat] at this
    simpa using this
  rcases hx_last with ⟨u, hu⟩
  by_cases hps : ps = []
  · subst hps
    rw [hcat]
    have hxl : x = l := by
      have hrec := joinSep_splitOnList pat l
      rw [hcat] at hrec
      exact hrec
    show joinSep sep [x] ≠ [] ∧ (joinSep sep [x]).getLast? ≠ some '\n'
    rw [show joinSep sep [x] = x from rfl, hxl]
    exact ⟨hl_ne, hl_last⟩
  · rw [hcat, joinSep_concat_ne sep ps x hps]
    by_cases hx : x = []
    · subst hx
      rw [List.append_nil]
      constructor
      · simp [hsep_ne]
      · rw [List.getLast?_append_of_ne_nil _ hsep_ne]
        exact hsep_last
    · constructor
      · simp [hx]
      · rw [List.getLast?_append_of_ne_nil _ hx]
        have : l.getLast? = x.getLast? := by
          rw [← hu]
          exact List.getLast?_append_of_ne_nil u hx
        rw [← this]
        exact hl_last

/-- C6: for every note position and any resources template containing the
placeholder token, the written content is the note's previous content, one
blank line, the substituted resources text, and a final newline — and that
content ends with exactly one trailing newline. -/
theorem claim_C6_resources_append (files : List String) (resources_raw old : String)
    (i : Nat) (hi : i < files.length)
    (htok : TOK.data <:+: (pyStrip resources_raw).data) :
    step_4_new_content (pyStrip resources_raw) (next_note_link files i) old =
        old ++ "\n\n" ++
          resources_content (pyStrip resources_raw) (next_note_link files i) ++ "\n" ∧
      endsWithExactlyOneNewline
        (step_4_new_content (pyStrip resources_raw) (next_note_link files i) old) := by
  have _ := hi
  refine ⟨rfl, ?_⟩
  have hbase_ne : (pyStrip resources_raw).data ≠ [] := by
    intro h
    rw [h] at htok
    exact (by decide : TOK.data ≠ []) (List.eq_nil_of_infix_nil htok)
  have hbase_last : (pyStrip resources_raw).data.getLast? ≠ some '\n' := by
    intro h
    have := stripList_getLast_not_space resources_raw.data '\n' h
    simp [isPySpace] at this
  have hlink := link_facts files i
  have hfacts := joinSep_splitOn_getLast TOK.data (next_note_link files i).data
    (pyStrip resources_raw).data hlink.1 hlink.2 hbase_ne hbase_last
  have hdata : (step_4_new_content (pyStrip resources_raw)
      (next_note_link files i) old).data =
      ((old ++ "\n\n").data ++
        (resources_content (pyStrip resources_raw) (next_note_link files i)).data) ++
        ['\n'] := by
    show ((old ++ "\n\n" ++
        resources_content (pyStrip resources_raw) (next_note_link files i)) ++ "\n").data = _
    rw [string_data_append, string_data_append]
  unfold endsWithExactlyOneNewline
  rw [hdata]
  constructor
  · rw [List.getLast?_append_of_ne_nil _ (by simp : (['\n'] : List Char) ≠ [])]
    rfl
  · rw [List.dropLast_concat]
    show ((old ++ "\n\n").data ++
        joinSep (next_note_link files i).data
          (splitOnList TOK.data (pyStrip resources_raw).data)).getLast? ≠ some '\n'
    rw [List.getLast?_append_of_ne_nil _ hfacts.1]
    exact hfacts.2

/-- Witness for C6 at a concrete input. -/
theorem claim_C6_witness :
    (0 : Nat) < (["notes/A.md", "notes/B.md"] : List String).length ∧
      TOK.data <:+: (pyStrip "R: <NEXT_NOTE_LINK>\n").data ∧
      (step_4_new_content (pyStrip "R: <NEXT_NOTE_LINK>\n")
          (next_note_link ["notes/A.md", "notes/B.md"] 0) "body\n" =
          "body\n" ++ "\n\n" ++
            resources_content (pyStrip "R: <NEXT_NOTE_LINK>\n")
              (next_note_link ["notes/A.md", "notes/B.md"] 0) ++ "\n" ∧
        endsWithExactlyOneNewline
          (step_4_new_content (pyStrip "R: <NEXT_NOTE_LINK>\n")
            (next_note_link ["notes/A.md", "notes/B.md"] 0) "body\n")) :=
  ⟨by decide, by decide,
    claim_C6_resources_append ["notes/A.md", "notes/B.md"] "R: <NEXT_NOTE_LINK>\n"
      "body\n" 0 (by decide) (by decide)⟩
